import Mathlib

/-
Verification of deepspeed/runtime/comm/coalesced_collectives.py.

Tensors are modelled as flattened lists of exact rationals.  The collective
transport and the quantization kernels are external collaborators; they enter
the model as parameters:
  * dist.reduce_scatter_fn sum-reduces the per-rank inputs and delivers this
    rank's contiguous shard (reduceScatterChunk below);
  * the quantize / all-to-all / reduce / dequantize pipeline of
    all_to_all_quant_reduce is a parameter producing the dequantized
    final_output from the aligned flat tensor;
  * torch.empty yields uninitialized memory, modelled by an allocator oracle
    supplying the unspecified filler values.

Python float true-division comparisons of naturals against integer bounds are
transcribed denominator-cleared: with g positive, aligned / g <= 40960 is
aligned <= 40960 * g, and aligned / g > 40960 is 40960 * g < aligned.
-/

/-- Python math.ceil(n / w) for natural n and positive w (source line 130). -/
def ceilDiv (n w : Nat) : Nat := (n + w - 1) / w

/-- Python slice flattened_tensor[rank * c : rank * c + c] (source line 132). -/
def partOf (t : List ℚ) (c rank : Nat) : List ℚ := (t.drop (rank * c)).take c

/-- torch.empty(padding_sz) (source lines 154-155): a list of unspecified
filler values drawn from the allocator oracle. -/
def padFillFor (mem : Nat → Nat → Nat → ℚ) (rank i n : Nat) : List ℚ :=
  (List.range n).map (mem rank i)

/-- One entry of the interleave loop body (source lines 146-155): the rank's
partition of tensor i followed by uninitialized padding up to the padded
partition size of that tensor. -/
def paddedPart (mem : Nat → Nat → Nat → ℚ) (W rank i : Nat) (t : List ℚ) : List ℚ :=
  partOf t (ceilDiv t.length W) rank ++
    padFillFor mem rank i (ceilDiv t.length W - (partOf t (ceilDiv t.length W) rank).length)

/-- The inner loop over tensor indices for a fixed rank (source lines 146-155). -/
def blockFor (mem : Nat → Nat → Nat → ℚ) (ts : List (List ℚ)) (W rank : Nat) : List ℚ :=
  ((List.range ts.length).map (fun i => paddedPart mem W rank i (ts.getD i []))).flatten

/-- The interleaved flat buffer torch.cat(tensor_partitions_lst_with_padding)
(source lines 144-157): for each rank in order, each tensor's partition for
that rank plus padding. -/
def interleaved (mem : Nat → Nat → Nat → ℚ) (ts : List (List ℚ)) (W : Nat) : List ℚ :=
  ((List.range W).map (fun rank => blockFor mem ts W rank)).flatten

/-- sum of the padded partition sizes (source line 135). -/
def paddedSizesSum (ts : List (List ℚ)) (W : Nat) : Nat :=
  (ts.map (fun t => ceilDiv t.length W)).sum

/-- tensor_partition_flat_buffer (source lines 137-157): the fast path reuses
the single input tensor when no padding is needed, otherwise the interleaved
buffer is materialized. -/
def flatBufOf (mem : Nat → Nat → Nat → ℚ) (ts : List (List ℚ)) (W : Nat) : List ℚ :=
  if ts.length = 1 ∧ (ts.headD []).length % W = 0 then ts.headD []
  else interleaved mem ts W

/-- tensor_partition_flat_buffer.div_(world_sz) (source line 159). -/
def divW (W : Nat) (xs : List ℚ) : List ℚ := xs.map (fun x => x / (W : ℚ))

/-- dist.reduce_scatter_fn (external collective, source lines 22-23 and
163-165): sum across all ranks of their (already divided) flat buffers,
delivering the contiguous shard of this rank, of length chunkLen. -/
def reduceScatterChunk (W chunkLen thisRank : Nat) (bufOf : Nat → List ℚ) : List ℚ :=
  (List.range chunkLen).map (fun j =>
    ((List.range W).map (fun r => (bufOf r).getD (thisRank * chunkLen + j) 0)).sum)

/-- Accumulating offset of padded partition sizes used by the de-interleave
loop (source lines 170-175). -/
def offsetsBefore (ts : List (List ℚ)) (W i : Nat) : Nat :=
  ((ts.take i).map (fun t => ceilDiv t.length W)).sum

/-- reduce_scatter_coalesced (source lines 116-176), seen from rank thisRank.
tensorsOf gives every rank's input list (the call is collective); memOf r is
rank r's allocator oracle for the uninitialized padding. Returns the list of
output views, one per input tensor. -/
def reduce_scatter_coalesced (memOf : Nat → Nat → Nat → Nat → ℚ)
    (tensorsOf : Nat → List (List ℚ)) (W thisRank : Nat) : List (List ℚ) :=
  let ts := tensorsOf thisRank
  let red := reduceScatterChunk W (paddedSizesSum ts W) thisRank
      (fun r => divW W (flatBufOf (memOf r) (tensorsOf r) W))
  (List.range ts.length).map (fun i =>
    (red.drop (offsetsBefore ts W i)).take
      ((partOf (ts.getD i []) (ceilDiv (ts.getD i []).length W) thisRank).length))

/-- Overwrite the slice [off, off + v.length) of xs with v. -/
def setSlice (xs : List ℚ) (off : Nat) (v : List ℚ) : List ℚ :=
  xs.take off ++ v ++ xs.drop (off + v.length)

/-- State of this rank's input tensors after reduce_scatter_coalesced returns.
On the fast path (source lines 137-140) the flat buffer aliases the caller's
tensor, so div_ (line 159) divides it in place and the collective (lines
163-165) overwrites the chunk of this rank; on the general path torch.cat
copies, so the inputs are untouched. -/
def reduce_scatter_coalesced_input_after (memOf : Nat → Nat → Nat → Nat → ℚ)
    (tensorsOf : Nat → List (List ℚ)) (W thisRank : Nat) : List (List ℚ) :=
  let ts := tensorsOf thisRank
  if ts.length = 1 ∧ (ts.headD []).length % W = 0 then
    [setSlice (divW W (ts.headD [])) (thisRank * paddedSizesSum ts W)
      (reduceScatterChunk W (paddedSizesSum ts W) thisRank
        (fun r => divW W (flatBufOf (memOf r) (tensorsOf r) W)))]
  else ts

/-- Spec-side formula used by claim C1: the elementwise sum, across the W
ranks, of the lists f r, read at the first n positions. -/
def sumAcross (W : Nat) (f : Nat → List ℚ) (n : Nat) : List ℚ :=
  (List.range n).map (fun p => ((List.range W).map (fun r => (f r).getD p 0)).sum)

/-- padding_size (source lines 54-55). -/
def alignPad (n W : Nat) : Nat := if n % W = 0 then 0 else W - n % W

/-- aligned_size (source line 56). -/
def alignedSize (n W : Nat) : Nat := n + alignPad n W

/-- flat_tensor (source lines 57-58): torch.empty(aligned_size) with the real
data copied to the front; the tail keeps whatever the allocator oracle mem
yields. -/
def alignedBuf (mem : Nat → ℚ) (t : List ℚ) (W : Nat) : List ℚ :=
  t ++ (List.range (alignedSize t.length W - t.length)).map mem

/-- First solver loop (source lines 62-67): starting from the candidate g,
step by global_world_size while g < aligned_size until g divides aligned_size
with aligned_size / g <= 40960. Fuel-indexed so that the definition computes;
solveInc supplies provably sufficient fuel. -/
def solveIncFuel : Nat → Nat → Nat → Nat → Nat
  | 0, _, _, g => g
  | fuel+1, aligned, step, g =>
    if g < aligned then
      if aligned % g = 0 ∧ aligned ≤ 40960 * g then g
      else solveIncFuel fuel aligned step (g + step)
    else g

def solveInc (aligned step g : Nat) : Nat := solveIncFuel (aligned + 1) aligned step g

/-- Second solver loop (source lines 68-73): double g while aligned_size is
divisible by 2 g and aligned_size / g still exceeds 40960. -/
def solveDblFuel : Nat → Nat → Nat → Nat
  | 0, _, g => g
  | fuel+1, aligned, g =>
    if aligned % (g * 2) = 0 ∧ 40960 * g < aligned then
      solveDblFuel fuel aligned (g * 2)
    else g

def solveDbl (aligned g : Nat) : Nat := solveDblFuel (aligned + 1) aligned g

/-- The adaptive group-size search of source lines 62-73. -/
def solveGroup (gws aligned : Nat) : Nat := solveDbl aligned (solveInc aligned gws gws)

/-- Cache lookup or adaptive solve with the three asserts of source lines
59-81. Returns the group size, the updated cache, and whether the lookup hit. -/
def lookupOrSolve (gws numel aligned : Nat) (cache : List (Nat × Nat)) :
    Except String (Nat × List (Nat × Nat) × Bool) :=
  match cache.lookup aligned with
  | some g => Except.ok (g, cache, true)
  | none =>
    let g := solveGroup gws aligned
    if g % gws = 0 then
      if aligned ≤ 40960 * g then
        if g < numel then Except.ok (g, (aligned, g) :: cache, false)
        else Except.error "assert adaptive group"
      else Except.error "assert elems per group"
    else Except.error "assert group multiple"

/-- sum(list(xs.chunk(nn))) / nn (source lines 103 and 108) for nn dividing
the length of xs: elementwise mean of the nn stacked contributions. -/
def chunkMean (nn : Nat) (xs : List ℚ) : List ℚ :=
  (List.range (xs.length / nn)).map (fun j =>
    (((List.range nn).map (fun k => xs.getD (k * (xs.length / nn) + j) 0)).sum) / (nn : ℚ))

/-- The finalize step of all_to_all_quant_reduce (source lines 99-110): slice
this rank's partition window out of the averaged dequantized buffer, with the
two asserts; when the window starts at or past the true element count the
output slot is left unfilled. -/
def finalize (gws nn thisRank numel aligned : Nat) (finalOut : List ℚ) :
    Except String (Option (List ℚ)) :=
  let p := aligned / gws
  let s := p * thisRank
  if s < numel ∧ s + p ≤ numel then
    let out := chunkMean nn finalOut
    if out.length = p then Except.ok (some out) else Except.error "assert partition numel"
  else if s < numel then
    if thisRank = gws - 1 then Except.ok (some ((chunkMean nn finalOut).take (numel - s)))
    else Except.error "assert last rank"
  else Except.ok none

/-- A torch tensor as far as all_to_all_quant_reduce inspects it: its number
of dimensions and its flattened contents. -/
structure PyTensor where
  dim : Nat
  data : List ℚ

/-- One iteration of the loop of all_to_all_quant_reduce (source lines
44-110) at tensor index idx. A 1-dimensional tensor is routed through
reduce_scatter_coalesced (line 46); otherwise the buffer is aligned, the
group size solved or fetched from the cache, the quantized two-level exchange
(an external pipeline parameter, source lines 83-98) produces final_output,
and finalize slices this rank's window. Returns the output slot, the updated
cache, and the cache-hit record. -/
def ataqrStep (gws lws thisRank idx : Nat) (tensorsOf : Nat → List PyTensor)
    (rscMemOf : Nat → Nat → Nat → Nat → ℚ) (alignMem : Nat → Nat → ℚ)
    (pipeline : Nat → List ℚ → Nat → Nat → List ℚ)
    (t : PyTensor) (cache : List (Nat × Nat)) :
    Except String (Option (List ℚ) × List (Nat × Nat) × List Bool) :=
  if t.dim = 1 then
    Except.ok (some ((reduce_scatter_coalesced rscMemOf
      (fun r => [((tensorsOf r).getD idx ⟨1, []⟩).data]) gws thisRank).getD 0 []),
      cache, [])
  else
    match lookupOrSolve gws t.data.length (alignedSize t.data.length gws) cache with
    | Except.error e => Except.error e
    | Except.ok (g, cache2, hit) =>
      match finalize gws (gws / lws) thisRank t.data.length (alignedSize t.data.length gws)
          (pipeline idx (alignedBuf (alignMem idx) t.data gws) g (g / lws)) with
      | Except.error e => Except.error e
      | Except.ok o => Except.ok (o, cache2, [hit])

/-- The enumerate loop of all_to_all_quant_reduce (source line 44),
threading the per-call cache. -/
def ataqrLoop (gws lws thisRank : Nat) (tensorsOf : Nat → List PyTensor)
    (rscMemOf : Nat → Nat → Nat → Nat → ℚ) (alignMem : Nat → Nat → ℚ)
    (pipeline : Nat → List ℚ → Nat → Nat → List ℚ) :
    List PyTensor → Nat → List (Nat × Nat) →
    Except String (List (Option (List ℚ)) × List (Nat × Nat) × List Bool)
  | [], _, cache => Except.ok ([], cache, [])
  | t :: rest, idx, cache =>
    match ataqrStep gws lws thisRank idx tensorsOf rscMemOf alignMem pipeline t cache with
    | Except.error e => Except.error e
    | Except.ok (o, cache2, h) =>
      match ataqrLoop gws lws thisRank tensorsOf rscMemOf alignMem pipeline rest (idx + 1) cache2 with
      | Except.error e => Except.error e
      | Except.ok (os, cache3, hs) => Except.ok (o :: os, cache3, h ++ hs)

/-- all_to_all_quant_reduce (source lines 29-111), seen from rank thisRank.
The cache intra_group_cache is created afresh inside every call (source line
42), so the loop starts from the empty cache. Returns the output slots (None
models an unfilled slot), the final cache, and the cache-hit record of the
multi-dimensional tensors in order. -/
def all_to_all_quant_reduce (gws lws thisRank : Nat) (tensorsOf : Nat → List PyTensor)
    (rscMemOf : Nat → Nat → Nat → Nat → ℚ) (alignMem : Nat → Nat → ℚ)
    (pipeline : Nat → List ℚ → Nat → Nat → List ℚ) :
    Except String (List (Option (List ℚ)) × List (Nat × Nat) × List Bool) :=
  ataqrLoop gws lws thisRank tensorsOf rscMemOf alignMem pipeline (tensorsOf thisRank) 0 []

/-! Solver lemmas -/

theorem solveIncFuel_spec (step aligned : Nat) (hstep : 0 < step) (hal : 0 < aligned)
    (hdvd : step ∣ aligned) :
    ∀ fuel g, 0 < g → step ∣ g → g ≤ aligned → aligned - g < fuel →
      (solveIncFuel fuel aligned step g ∣ aligned) ∧ step ∣ solveIncFuel fuel aligned step g ∧
      aligned ≤ 40960 * solveIncFuel fuel aligned step g ∧
      0 < solveIncFuel fuel aligned step g := by
  intro fuel
  induction fuel with
  | zero => intro g _ _ _ hf; omega
  | succ n ih =>
    intro g hg hsg hga hf
    rw [solveIncFuel]
    by_cases hlt : g < aligned
    · simp only [hlt, if_true]
      by_cases hbr : aligned % g = 0 ∧ aligned ≤ 40960 * g
      · simp only [hbr, if_true]
        exact ⟨Nat.dvd_of_mod_eq_zero hbr.1, hsg, hbr.2, hg⟩
      · simp only [hbr, if_false]
        have hsub : step ∣ aligned - g := Nat.dvd_sub' hdvd hsg
        have hle : step ≤ aligned - g := Nat.le_of_dvd (by omega) hsub
        exact ih (g + step) (by omega) (Dvd.dvd.add hsg dvd_rfl) (by omega) (by omega)
    · simp only [hlt, if_false]
      have hga2 : g = aligned := by omega
      subst hga2
      exact ⟨dvd_rfl, hsg, by omega, hg⟩

theorem solveIncFuel_fuel_add (step aligned : Nat) (hstep : 0 < step)
    (hdvd : step ∣ aligned) :
    ∀ fuel g extra, 0 < g → step ∣ g → g ≤ aligned → aligned - g < fuel →
      solveIncFuel (fuel + extra) aligned step g = solveIncFuel fuel aligned step g := by
  intro fuel
  induction fuel with
  | zero => intro g extra _ _ _ hf; omega
  | succ n ih =>
    intro g extra hg hsg hga hf
    have hshape : n + 1 + extra = (n + extra) + 1 := by omega
    rw [hshape, solveIncFuel, solveIncFuel]
    by_cases hlt : g < aligned
    · rw [if_pos hlt, if_pos hlt]
      by_cases hbr : aligned % g = 0 ∧ aligned ≤ 40960 * g
      · rw [if_pos hbr, if_pos hbr]
      · rw [if_neg hbr, if_neg hbr]
        have hsub : step ∣ aligned - g := Nat.dvd_sub' hdvd hsg
        have hle : step ≤ aligned - g := Nat.le_of_dvd (by omega) hsub
        exact ih (g + step) extra (by omega) (Dvd.dvd.add hsg dvd_rfl) (by omega) (by omega)
    · rw [if_neg hlt, if_neg hlt]

theorem solveDblFuel_stop (fuel aligned g : Nat) (h : aligned ≤ 40960 * g) :
    solveDblFuel fuel aligned g = g := by
  cases fuel with
  | zero => rfl
  | succ n =>
    rw [solveDblFuel]
    simp only [ite_eq_right_iff]
    intro hc
    omega

theorem solveDbl_eq_self (aligned g : Nat) (h : aligned ≤ 40960 * g) :
    solveDbl aligned g = g := solveDblFuel_stop (aligned + 1) aligned g h

theorem solveInc_spec (gws aligned : Nat) (hg : 0 < gws) (ha : 0 < aligned)
    (hdvd : gws ∣ aligned) :
    (solveInc aligned gws gws ∣ aligned) ∧ gws ∣ solveInc aligned gws gws ∧
    aligned ≤ 40960 * solveInc aligned gws gws ∧ 0 < solveInc aligned gws gws :=
  solveIncFuel_spec gws aligned hg ha hdvd (aligned + 1) gws hg dvd_rfl
    (Nat.le_of_dvd ha hdvd) (by omega)

theorem solveGroup_eq_solveInc (gws aligned : Nat) (hg : 0 < gws) (ha : 0 < aligned)
    (hdvd : gws ∣ aligned) :
    solveGroup gws aligned = solveInc aligned gws gws :=
  solveDbl_eq_self aligned (solveInc aligned gws gws) (solveInc_spec gws aligned hg ha hdvd).2.2.1

/-- C5: for every aligned_size that is a positive multiple of
global_world_size, the adaptive group-size search terminates (its result is
insensitive to extra fuel beyond the sufficient amount used by solveInc and
solveDbl), and the result g is a multiple of global_world_size, divides
aligned_size, and satisfies aligned_size / g <= 40960. -/
theorem C5_adaptive_solver_terminates_and_valid (gws aligned : Nat)
    (hg : 0 < gws) (ha : 0 < aligned) (hdvd : gws ∣ aligned) :
    (∀ extra, solveDblFuel (aligned + 1 + extra) aligned
        (solveIncFuel (aligned + 1 + extra) aligned gws gws) = solveGroup gws aligned) ∧
    solveGroup gws aligned % gws = 0 ∧
    solveGroup gws aligned ∣ aligned ∧
    (aligned : ℚ) / (solveGroup gws aligned : ℚ) ≤ 40960 := by
  obtain ⟨hdvd2, hmul, hbound, hpos⟩ := solveInc_spec gws aligned hg ha hdvd
  have heq : solveGroup gws aligned = solveInc aligned gws gws :=
    solveGroup_eq_solveInc gws aligned hg ha hdvd
  refine ⟨?_, ?_, ?_, ?_⟩
  · intro extra
    have hfa : solveIncFuel (aligned + 1 + extra) aligned gws gws = solveInc aligned gws gws :=
      solveIncFuel_fuel_add gws aligned hg hdvd (aligned + 1) gws extra hg dvd_rfl
        (Nat.le_of_dvd ha hdvd) (by omega)
    rw [hfa, heq, solveDblFuel_stop _ _ _ hbound]
  · rw [heq]
    obtain ⟨k, hk⟩ := hmul
    rw [hk]
    exact Nat.mul_mod_right gws k
  · rw [heq]
    exact hdvd2
  · rw [heq]
    have hposq : (0 : ℚ) < (solveInc aligned gws gws : ℚ) := by exact_mod_cast hpos
    rw [div_le_iff₀ hposq]
    exact_mod_cast hbound

/-- Witness for C5 at gws = 2, aligned = 4. -/
theorem C5_witness :
    0 < 2 ∧ 0 < 4 ∧ 2 ∣ 4 ∧
    ((∀ extra, solveDblFuel (4 + 1 + extra) 4 (solveIncFuel (4 + 1 + extra) 4 2 2)
        = solveGroup 2 4) ∧
     solveGroup 2 4 % 2 = 0 ∧ solveGroup 2 4 ∣ 4 ∧
     ((4 : Nat) : ℚ) / ((solveGroup 2 4 : Nat) : ℚ) ≤ 40960) :=
  ⟨by decide, by decide, by decide,
   C5_adaptive_solver_terminates_and_valid 2 4 (by decide) (by decide) (by decide)⟩

/-- C6 counterexample: there is no aligned_size, a positive multiple of
global_world_size, reaching the solver with aligned_size divided by the
initial candidate group exceeding 40960, for which the doubling loop changes
the candidate produced by the increment search: the doubling loop never
engages, because the increment search only stops once the ceiling is already
satisfied. -/
theorem C6_counterexample :
    ¬ ∃ gws aligned : Nat, 0 < gws ∧ gws ∣ aligned ∧ 0 < aligned ∧
      (40960 : ℚ) < (aligned : ℚ) / (gws : ℚ) ∧
      solveDbl aligned (solveInc aligned gws gws) ≠ solveInc aligned gws gws := by
  rintro ⟨gws, aligned, hg, hdvd, ha, _, hne⟩
  exact hne (solveDbl_eq_self aligned (solveInc aligned gws gws)
    (solveInc_spec gws aligned hg ha hdvd).2.2.1)

/-- C6 amended: the doubling loop of the adaptive solver never executes a
doubling; after the increment search the ceiling aligned_size / g <= 40960
already holds, the doubling condition is never met, and the solver result is
exactly the result of the increment search. -/
theorem C6_amended_doubling_never_engages (gws aligned : Nat)
    (hg : 0 < gws) (ha : 0 < aligned) (hdvd : gws ∣ aligned) :
    solveGroup gws aligned = solveInc aligned gws gws :=
  solveGroup_eq_solveInc gws aligned hg ha hdvd

/-- Witness for the amended C6 at gws = 2, aligned = 100000, a configuration
in the regime the original claim describes: aligned / gws = 50000 > 40960. -/
theorem C6_amended_witness :
    0 < 2 ∧ 0 < 100000 ∧ 2 ∣ 100000 ∧
    solveGroup 2 100000 = solveInc 100000 2 2 :=
  ⟨by decide, by decide, by decide,
   C6_amended_doubling_never_engages 2 100000 (by decide) (by decide) (by decide)⟩

/-- C7 counterexample: at global_world_size = 1 with a tensor of 5 elements
(aligned_size = 5) the solver accepts group size 1 while aligned_size / g
equals numel, not less than numel: the claimed check aligned_size / g < numel
is not enforced by the code. -/
theorem C7_counterexample :
    lookupOrSolve 1 5 5 [] = Except.ok (1, [(5, 1)], false) ∧
    ¬ ((5 : ℚ) / ((1 : Nat) : ℚ) < 5) := by
  constructor
  · rfl
  · norm_num

/-- C7 amended: the checks the solver enforces as fatal assertions on a cache
miss are: the group size is a multiple of global_world_size, aligned_size / g
is at most 40960, and g is strictly less than numel (the true element count).
The check aligned_size / g < numel claimed by the spec is not among them, and
divisibility of aligned_size by g holds as an invariant of the search but is
not asserted. -/
theorem C7_amended_solver_checks (gws numel aligned g : Nat) (c2 : List (Nat × Nat))
    (h : lookupOrSolve gws numel aligned [] = Except.ok (g, c2, false)) :
    g % gws = 0 ∧ (aligned : ℚ) / (g : ℚ) ≤ 40960 ∧ g < numel := by
  unfold lookupOrSolve at h
  simp only [List.lookup] at h
  split_ifs at h with h1 h2 h3
  · simp only [Except.ok.injEq, Prod.mk.injEq] at h
    obtain ⟨hg, -, -⟩ := h
    subst hg
    refine ⟨h1, ?_, h3⟩
    rcases Nat.eq_zero_or_pos (solveGroup gws aligned) with hz | hp
    · rw [hz] at h2 ⊢
      have : aligned = 0 := by omega
      simp [this]
    · have hposq : (0 : ℚ) < ((solveGroup gws aligned : Nat) : ℚ) := by exact_mod_cast hp
      rw [div_le_iff₀ hposq]
      exact_mod_cast h2

/-- Witness for the amended C7 at gws = 2, numel = 10, aligned = 16. -/
theorem C7_amended_witness :
    lookupOrSolve 2 10 16 [] = Except.ok (2, [(16, 2)], false) ∧
    (2 % 2 = 0 ∧ ((16 : Nat) : ℚ) / ((2 : Nat) : ℚ) ≤ 40960 ∧ 2 < 10) :=
  ⟨rfl, C7_amended_solver_checks 2 10 16 2 [(16, 2)] rfl⟩

/-! Inversion lemmas for all_to_all_quant_reduce -/

theorem lookupOrSolve_hit (gws numel aligned g : Nat) (rest : List (Nat × Nat)) :
    lookupOrSolve gws numel aligned ((aligned, g) :: rest)
      = Except.ok (g, (aligned, g) :: rest, true) := by
  unfold lookupOrSolve
  simp [List.lookup]

theorem lookupOrSolve_miss (gws numel aligned : Nat) (out : Nat × List (Nat × Nat) × Bool)
    (h : lookupOrSolve gws numel aligned [] = Except.ok out) :
    out = (solveGroup gws aligned, [(aligned, solveGroup gws aligned)], false) := by
  unfold lookupOrSolve at h
  simp only [List.lookup] at h
  split_ifs at h with h1 h2 h3 <;> simp_all

theorem ataqrStep_dim1 (gws lws thisRank idx : Nat) (tensorsOf : Nat → List PyTensor)
    (rscMemOf : Nat → Nat → Nat → Nat → ℚ) (alignMem : Nat → Nat → ℚ)
    (pipeline : Nat → List ℚ → Nat → Nat → List ℚ)
    (t : PyTensor) (cache : List (Nat × Nat)) (hd : t.dim = 1) :
    ataqrStep gws lws thisRank idx tensorsOf rscMemOf alignMem pipeline t cache
      = Except.ok (some ((reduce_scatter_coalesced rscMemOf
          (fun r => [((tensorsOf r).getD idx ⟨1, []⟩).data]) gws thisRank).getD 0 []),
          cache, []) := by
  unfold ataqrStep
  rw [if_pos hd]

theorem ataqrStep_inv (gws lws thisRank idx : Nat) (tensorsOf : Nat → List PyTensor)
    (rscMemOf : Nat → Nat → Nat → Nat → ℚ) (alignMem : Nat → Nat → ℚ)
    (pipeline : Nat → List ℚ → Nat → Nat → List ℚ)
    (t : PyTensor) (cache : List (Nat × Nat))
    (o : Option (List ℚ)) (c2 : List (Nat × Nat)) (h : List Bool) (hd : t.dim ≠ 1)
    (hok : ataqrStep gws lws thisRank idx tensorsOf rscMemOf alignMem pipeline t cache
      = Except.ok (o, c2, h)) :
    ∃ g hit,
      lookupOrSolve gws t.data.length (alignedSize t.data.length gws) cache
        = Except.ok (g, c2, hit) ∧ h = [hit] ∧
      finalize gws (gws / lws) thisRank t.data.length (alignedSize t.data.length gws)
        (pipeline idx (alignedBuf (alignMem idx) t.data gws) g (g / lws)) = Except.ok o := by
  unfold ataqrStep at hok
  rw [if_neg hd] at hok
  split at hok
  · exact absurd hok (by simp)
  · next g cc hit heq =>
    split at hok
    · exact absurd hok (by simp)
    · next o2 heq2 =>
      simp only [Except.ok.injEq, Prod.mk.injEq] at hok
      obtain ⟨ho, hc, hh⟩ := hok
      subst ho; subst hc; subst hh
      exact ⟨g, hit, heq, rfl, heq2⟩

theorem ataqrLoop_nil (gws lws thisRank : Nat) (tensorsOf : Nat → List PyTensor)
    (rscMemOf : Nat → Nat → Nat → Nat → ℚ) (alignMem : Nat → Nat → ℚ)
    (pipeline : Nat → List ℚ → Nat → Nat → List ℚ) (idx : Nat) (cache : List (Nat × Nat)) :
    ataqrLoop gws lws thisRank tensorsOf rscMemOf alignMem pipeline [] idx cache
      = Except.ok ([], cache, []) := rfl

theorem ataqrLoop_cons_inv (gws lws thisRank : Nat) (tensorsOf : Nat → List PyTensor)
    (rscMemOf : Nat → Nat → Nat → Nat → ℚ) (alignMem : Nat → Nat → ℚ)
    (pipeline : Nat → List ℚ → Nat → Nat → List ℚ)
    (t : PyTensor) (rest : List PyTensor) (idx : Nat) (cache : List (Nat × Nat))
    (os : List (Option (List ℚ))) (c3 : List (Nat × Nat)) (hs : List Bool)
    (hok : ataqrLoop gws lws thisRank tensorsOf rscMemOf alignMem pipeline
      (t :: rest) idx cache = Except.ok (os, c3, hs)) :
    ∃ o c2 h os2 hs2,
      ataqrStep gws lws thisRank idx tensorsOf rscMemOf alignMem pipeline t cache
        = Except.ok (o, c2, h) ∧
      ataqrLoop gws lws thisRank tensorsOf rscMemOf alignMem pipeline rest (idx + 1) c2
        = Except.ok (os2, c3, hs2) ∧
      os = o :: os2 ∧ hs = h ++ hs2 := by
  unfold ataqrLoop at hok
  split at hok
  · exact absurd hok (by simp)
  · next o c2 h heq =>
    split at hok
    · exact absurd hok (by simp)
    · next os2 c3b hs2 heq2 =>
      simp only [Except.ok.injEq, Prod.mk.injEq] at hok
      obtain ⟨ho, hc, hh⟩ := hok
      subst ho; subst hc; subst hh
      exact ⟨o, c2, h, os2, hs2, heq, heq2, rfl, rfl⟩

theorem finalize_isSome_iff (gws nn thisRank numel aligned : Nat) (finalOut : List ℚ)
    (o : Option (List ℚ))
    (h : finalize gws nn thisRank numel aligned finalOut = Except.ok o) :
    (o.isSome = true ↔ (aligned / gws) * thisRank < numel) := by
  simp only [finalize] at h
  split_ifs at h with hA hB hC hD
  all_goals rw [Except.ok.injEq] at h
  all_goals subst h
  all_goals simp_all
  all_goals omega

theorem ataqrStep_slot_iff (gws lws thisRank idx : Nat) (tensorsOf : Nat → List PyTensor)
    (rscMemOf : Nat → Nat → Nat → Nat → ℚ) (alignMem : Nat → Nat → ℚ)
    (pipeline : Nat → List ℚ → Nat → Nat → List ℚ)
    (t : PyTensor) (cache : List (Nat × Nat))
    (o : Option (List ℚ)) (c2 : List (Nat × Nat)) (h : List Bool)
    (hok : ataqrStep gws lws thisRank idx tensorsOf rscMemOf alignMem pipeline t cache
      = Except.ok (o, c2, h)) :
    (o.isSome = true ↔
      (t.dim = 1 ∨ (alignedSize t.data.length gws / gws) * thisRank < t.data.length)) := by
  by_cases hd : t.dim = 1
  · rw [ataqrStep_dim1 gws lws thisRank idx tensorsOf rscMemOf alignMem pipeline
      t cache hd] at hok
    simp only [Except.ok.injEq, Prod.mk.injEq] at hok
    obtain ⟨ho, -, -⟩ := hok
    rw [← ho]
    simp [hd]
  · obtain ⟨g, hit, -, -, hfin⟩ :=
      ataqrStep_inv gws lws thisRank idx tensorsOf rscMemOf alignMem pipeline
        t cache o c2 h hd hok
    have hiff := finalize_isSome_iff gws (gws / lws) thisRank t.data.length
      (alignedSize t.data.length gws) _ o hfin
    rw [hiff]
    simp [hd]

theorem ataqrLoop_slots (gws lws thisRank : Nat) (tensorsOf : Nat → List PyTensor)
    (rscMemOf : Nat → Nat → Nat → Nat → ℚ) (alignMem : Nat → Nat → ℚ)
    (pipeline : Nat → List ℚ → Nat → Nat → List ℚ) :
    ∀ (ts : List PyTensor) (idx : Nat) (cache : List (Nat × Nat))
      (os : List (Option (List ℚ))) (cache2 : List (Nat × Nat)) (hits : List Bool),
      ataqrLoop gws lws thisRank tensorsOf rscMemOf alignMem pipeline ts idx cache
        = Except.ok (os, cache2, hits) →
      os.length = ts.length ∧
      ∀ i, i < ts.length →
        ((os.getD i none).isSome = true ↔
          ((ts.getD i ⟨1, []⟩).dim = 1 ∨
           (alignedSize (ts.getD i ⟨1, []⟩).data.length gws / gws) * thisRank
             < (ts.getD i ⟨1, []⟩).data.length)) := by
  intro ts
  induction ts with
  | nil =>
    intro idx cache os c2 hits hok
    rw [ataqrLoop_nil] at hok
    simp only [Except.ok.injEq, Prod.mk.injEq] at hok
    obtain ⟨hos, -, -⟩ := hok
    subst hos
    exact ⟨rfl, fun i hi => absurd hi (by simp)⟩
  | cons t rest ih =>
    intro idx cache os c2 hits hok
    obtain ⟨o1, cm, h1, os2, hs2, hstep, hrest, hos, -⟩ :=
      ataqrLoop_cons_inv gws lws thisRank tensorsOf rscMemOf alignMem pipeline
        t rest idx cache os c2 hits hok
    subst hos
    obtain ⟨hlen2, hslots2⟩ := ih (idx + 1) cm os2 c2 hs2 hrest
    refine ⟨by simp [hlen2], ?_⟩
    intro i hi
    cases i with
    | zero =>
      simp only [List.getD_cons_zero]
      exact ataqrStep_slot_iff gws lws thisRank idx tensorsOf rscMemOf alignMem pipeline
        t cache o1 cm h1 hstep
    | succ n =>
      simp only [List.getD_cons_succ]
      exact hslots2 n (by simpa using hi)

/-- C2 counterexample: with global_world_size 8, local_world_size 4 and one
2-dimensional buffer of 10 elements, rank 7 has partition window
[14, 16) lying entirely within the zero-padding region (numel = 10,
aligned_size = 16), and all_to_all_quant_reduce leaves that output slot
unfilled (None, here isSome = false), contradicting the claim that no output
slot is left unfilled in exactly this situation. -/
theorem C2_counterexample :
    Except.map (fun x => x.1.map Option.isSome)
      (all_to_all_quant_reduce 8 4 7 (fun _ => [⟨2, List.replicate 10 0⟩])
        (fun _ _ _ _ => 0) (fun _ _ => 0) (fun _ _ _ _ => List.replicate 4 0))
      = Except.ok [false] := rfl

/-- C2 amended: when all_to_all_quant_reduce returns successfully it returns
one output slot per input, in order, and slot i is filled exactly when its
tensor is 1-dimensional or its partition window start
(aligned_size / world_size) * this_rank lies strictly below the true element
count; a slot whose aligned partition window lies entirely within the padding
region (start at or past numel) is left unfilled (None), also in mixed lists
next to filled slots. -/
theorem C2_amended_slots_filled_iff (gws lws thisRank : Nat)
    (tensorsOf : Nat → List PyTensor)
    (rscMemOf : Nat → Nat → Nat → Nat → ℚ) (alignMem : Nat → Nat → ℚ)
    (pipeline : Nat → List ℚ → Nat → Nat → List ℚ)
    (os : List (Option (List ℚ))) (cache2 : List (Nat × Nat)) (hits : List Bool)
    (hok : all_to_all_quant_reduce gws lws thisRank tensorsOf rscMemOf alignMem pipeline
      = Except.ok (os, cache2, hits)) :
    os.length = (tensorsOf thisRank).length ∧
    ∀ i, i < (tensorsOf thisRank).length →
      ((os.getD i none).isSome = true ↔
        (((tensorsOf thisRank).getD i ⟨1, []⟩).dim = 1 ∨
         (alignedSize ((tensorsOf thisRank).getD i ⟨1, []⟩).data.length gws / gws)
             * thisRank
           < ((tensorsOf thisRank).getD i ⟨1, []⟩).data.length)) :=
  ataqrLoop_slots gws lws thisRank tensorsOf rscMemOf alignMem pipeline
    (tensorsOf thisRank) 0 [] os cache2 hits hok

/-- Witness for the amended C2 at a mixed list: rank 7 with a 16-element and
a 10-element 2-dimensional buffer; the first window [14, 16) is inside the
real data and its slot is filled, the second window lies in the padding and
its slot is None. -/
theorem C2_amended_witness :
    all_to_all_quant_reduce 8 4 7
        (fun _ => [⟨2, List.replicate 16 0⟩, ⟨2, List.replicate 10 0⟩])
        (fun _ _ _ _ => 0) (fun _ _ => 0) (fun _ _ _ _ => List.replicate 4 0)
      = Except.ok ([some (chunkMean 2 (List.replicate 4 0)), none],
          [(16, 8)], [false, true]) ∧
    (([some (chunkMean 2 (List.replicate 4 (0 : ℚ))), none] :
        List (Option (List ℚ))).length
      = ((fun _ : Nat => [(⟨2, List.replicate 16 0⟩ : PyTensor),
          ⟨2, List.replicate 10 0⟩]) 7).length ∧
    ∀ i, i < ((fun _ : Nat => [(⟨2, List.replicate 16 0⟩ : PyTensor),
          ⟨2, List.replicate 10 0⟩]) 7).length →
      ((([some (chunkMean 2 (List.replicate 4 (0 : ℚ))), none] :
          List (Option (List ℚ))).getD i none).isSome = true ↔
        ((((fun _ : Nat => [(⟨2, List.replicate 16 0⟩ : PyTensor),
            ⟨2, List.replicate 10 0⟩]) 7).getD i ⟨1, []⟩).dim = 1 ∨
         (alignedSize ((((fun _ : Nat => [(⟨2, List.replicate 16 0⟩ : PyTensor),
            ⟨2, List.replicate 10 0⟩]) 7).getD i ⟨1, []⟩).data.length) 8 / 8) * 7
           < (((fun _ : Nat => [(⟨2, List.replicate 16 0⟩ : PyTensor),
            ⟨2, List.replicate 10 0⟩]) 7).getD i ⟨1, []⟩).data.length))) :=
  ⟨rfl,
   C2_amended_slots_filled_iff 8 4 7
     (fun _ => [⟨2, List.replicate 16 0⟩, ⟨2, List.replicate 10 0⟩])
     (fun _ _ _ _ => 0) (fun _ _ => 0) (fun _ _ _ _ => List.replicate 4 0)
     [some (chunkMean 2 (List.replicate 4 0)), none] [(16, 8)] [false, true] rfl⟩

/-- C8 counterexample: intra_group_cache is created afresh inside every call
of all_to_all_quant_reduce (source line 42), so the function has no cache
parameter at all; a first call with a 16-aligned buffer ends with the cache
entry (16, 8), yet any further call with the same buffer, being the very same
function application starting again from the empty cache, records a cache
miss ([false]) and re-runs the solver: no previously computed group size is
found across calls. -/
theorem C8_counterexample :
    Except.map (fun x => x.2.1)
      (all_to_all_quant_reduce 8 4 0 (fun _ => [⟨2, List.replicate 10 0⟩])
        (fun _ _ _ _ => 0) (fun _ _ => 0) (fun _ _ _ _ => List.replicate 4 0))
      = Except.ok [(16, 8)] ∧
    Except.map (fun x => x.2.2)
      (all_to_all_quant_reduce 8 4 0 (fun _ => [⟨2, List.replicate 10 0⟩])
        (fun _ _ _ _ => 0) (fun _ _ => 0) (fun _ _ _ _ => List.replicate 4 0))
      = Except.ok [false] := ⟨rfl, rfl⟩

/-- C8 amended: the group-size cache is call-local, created afresh on every
invocation; within a single call a second buffer of the same aligned size
finds the group size already cached (hit record [false, true]) and receives
the identical, deterministically recomputable group size solveGroup. -/
theorem C8_amended_cache_is_call_local (gws lws thisRank : Nat)
    (tensorsOf : Nat → List PyTensor)
    (rscMemOf : Nat → Nat → Nat → Nat → ℚ) (alignMem : Nat → Nat → ℚ)
    (pipeline : Nat → List ℚ → Nat → Nat → List ℚ)
    (t1 t2 : PyTensor) (hd1 : t1.dim ≠ 1) (hd2 : t2.dim ≠ 1)
    (hts : tensorsOf thisRank = [t1, t2])
    (hsz : alignedSize t2.data.length gws = alignedSize t1.data.length gws)
    (os : List (Option (List ℚ))) (cache2 : List (Nat × Nat)) (hits : List Bool)
    (hok : all_to_all_quant_reduce gws lws thisRank tensorsOf rscMemOf alignMem pipeline
      = Except.ok (os, cache2, hits)) :
    hits = [false, true] ∧
    cache2 = [(alignedSize t1.data.length gws,
               solveGroup gws (alignedSize t1.data.length gws))] := by
  unfold all_to_all_quant_reduce at hok
  rw [hts] at hok
  obtain ⟨o1, cm1, h1, os2, hs2, hstep1, hrest1, -, hhits⟩ :=
    ataqrLoop_cons_inv gws lws thisRank tensorsOf rscMemOf alignMem pipeline
      t1 [t2] 0 [] os cache2 hits hok
  obtain ⟨g1, hit1, hls1, hh1, -⟩ :=
    ataqrStep_inv gws lws thisRank 0 tensorsOf rscMemOf alignMem pipeline
      t1 [] o1 cm1 h1 hd1 hstep1
  have hv1 := lookupOrSolve_miss gws t1.data.length (alignedSize t1.data.length gws)
    (g1, cm1, hit1) hls1
  simp only [Prod.mk.injEq] at hv1
  obtain ⟨hg1, hcm1, hhit1⟩ := hv1
  subst hg1; subst hcm1; subst hhit1
  obtain ⟨o2, cm2, h2, os3, hs3, hstep2, hrest2, -, hhs2⟩ :=
    ataqrLoop_cons_inv gws lws thisRank tensorsOf rscMemOf alignMem pipeline
      t2 [] 1 _ os2 cache2 hs2 hrest1
  obtain ⟨g2, hit2, hls2, hh2, -⟩ :=
    ataqrStep_inv gws lws thisRank 1 tensorsOf rscMemOf alignMem pipeline
      t2 _ o2 cm2 h2 hd2 hstep2
  rw [hsz, lookupOrSolve_hit] at hls2
  simp only [Except.ok.injEq, Prod.mk.injEq] at hls2
  obtain ⟨hg2, hcm2, hhit2⟩ := hls2
  rw [ataqrLoop_nil] at hrest2
  simp only [Except.ok.injEq, Prod.mk.injEq] at hrest2
  obtain ⟨hos3, hc2, hhs3⟩ := hrest2
  subst hhits; subst hhs2; subst hhs3
  subst hh1; subst hh2; subst hhit2
  constructor
  · rfl
  · rw [← hc2, ← hcm2]

/-- Witness for the amended C8: one call with two 10-element 2-dimensional
buffers of the same aligned size 16 records [false, true] and caches
solveGroup 8 16 = 8. -/
theorem C8_amended_witness :
    ([false, true] : List Bool) = [false, true] ∧
    ([(16, 8)] : List (Nat × Nat)) = [(alignedSize 10 8, solveGroup 8 (alignedSize 10 8))] :=
  C8_amended_cache_is_call_local 8 4 0
    (fun _ => [⟨2, List.replicate 10 0⟩, ⟨2, List.replicate 10 0⟩])
    (fun _ _ _ _ => 0) (fun _ _ => 0) (fun _ _ _ _ => List.replicate 4 0)
    ⟨2, List.replicate 10 0⟩ ⟨2, List.replicate 10 0⟩ (by decide) (by decide) rfl rfl
    [some (chunkMean 2 (List.replicate 4 0)), some (chunkMean 2 (List.replicate 4 0))]
    [(16, 8)] [false, true] rfl

theorem alignedSize_mod (n W : Nat) (hW : 0 < W) : alignedSize n W % W = 0 := by
  unfold alignedSize alignPad
  split_ifs with h
  · simpa using h
  · have hdm := Nat.div_add_mod n W
    have hlt : n % W < W := Nat.mod_lt n hW
    have h2 : n + (W - n % W) = W * (n / W) + W := by omega
    rw [h2, Nat.mul_add_mod]
    exact Nat.mod_self W

/-- C9 counterexample: with global_world_size 8, local_world_size 4 and one
2-dimensional buffer of 11 elements (aligned_size 16, partition_size 2), rank
5 has window [10, 12) extending past the true length 11, reaches the
truncation branch, and the assertion this_rank == world_size - 1 fails (5 is
not 7): the call aborts with the assertion error instead of satisfying it. -/
theorem C9_counterexample :
    all_to_all_quant_reduce 8 4 5 (fun _ => [⟨2, List.replicate 11 0⟩])
      (fun _ _ _ _ => 0) (fun _ _ => 0) (fun _ _ _ _ => List.replicate 4 0)
      = Except.error "assert last rank" := rfl

/-- C9 amended: whenever the padding is smaller than the partition size
(aligned_size - numel < aligned_size / world_size), any rank below world_size
reaching the truncation branch is the last rank, so the assertion holds and
finalize never aborts with the last-rank assertion error; when the padding
reaches or exceeds the partition size, a non-last rank can reach the
truncation branch and the assertion fails, as the counterexample shows. -/
theorem C9_amended_truncation_only_last_rank (gws nn thisRank numel : Nat)
    (finalOut : List ℚ) (hg : 0 < gws) (hr : thisRank < gws)
    (hpad : alignedSize numel gws - numel < alignedSize numel gws / gws) :
    finalize gws nn thisRank numel (alignedSize numel gws) finalOut
      ≠ Except.error "assert last rank" := by
  intro h
  simp only [finalize] at h
  split_ifs at h with hA hB hC
  · exact absurd h (by simp)
  · -- the last-rank assert failed: derive the arithmetic contradiction
    have hmod := alignedSize_mod numel gws hg
    have hdm := Nat.div_add_mod (alignedSize numel gws) gws
    have hnle : numel ≤ alignedSize numel gws := Nat.le_add_right numel (alignPad numel gws)
    have hge2 : thisRank + 1 ≤ gws - 1 := by omega
    have hmul1 : (alignedSize numel gws / gws) * (thisRank + 1)
        ≤ (alignedSize numel gws / gws) * (gws - 1) :=
      Nat.mul_le_mul_left (alignedSize numel gws / gws) hge2
    have hms : (alignedSize numel gws / gws) * (thisRank + 1)
        = (alignedSize numel gws / gws) * thisRank + alignedSize numel gws / gws :=
      Nat.mul_succ (alignedSize numel gws / gws) thisRank
    have hms2 : (alignedSize numel gws / gws) * (gws - 1) + alignedSize numel gws / gws
        = (alignedSize numel gws / gws) * gws := by
      rw [← Nat.mul_succ]
      congr 1
      omega
    have hcomm : (alignedSize numel gws / gws) * gws
        = gws * (alignedSize numel gws / gws) := Nat.mul_comm _ _
    omega

/-- Witness for the amended C9 at gws = 2, nn = 1, rank 1, numel = 3:
padding 1 is smaller than partition size 2 and the truncation branch is taken
by the last rank without error. -/
theorem C9_amended_witness :
    0 < 2 ∧ 1 < 2 ∧ alignedSize 3 2 - 3 < alignedSize 3 2 / 2 ∧
    finalize 2 1 1 3 (alignedSize 3 2) [0, 0, 0, 0] ≠ Except.error "assert last rank" :=
  ⟨by decide, by decide, by decide,
   C9_amended_truncation_only_last_rank 2 1 1 3 [0, 0, 0, 0]
     (by decide) (by decide) (by decide)⟩

/-! List lemmas for the interleave and de-interleave algebra -/

theorem flatten_getD_prefix (L : List (List ℚ)) :
    ∀ (i j : Nat) (d : ℚ), i < L.length → j < (L.getD i []).length →
    L.flatten.getD (((L.take i).map List.length).sum + j) d = (L.getD i []).getD j d := by
  induction L with
  | nil => intro i j d hi _; simp at hi
  | cons hd tl ih =>
    intro i j d hi hj
    cases i with
    | zero =>
      simp only [List.take_zero, List.map_nil, List.sum_nil, Nat.zero_add]
      rw [List.getD_cons_zero] at hj
      rw [List.getD_cons_zero, List.flatten_cons, List.getD_eq_getElem?_getD,
        List.getD_eq_getElem?_getD, List.getElem?_append, if_pos hj]
    | succ n =>
      simp only [List.take_succ_cons, List.map_cons, List.sum_cons]
      rw [List.flatten_cons]
      simp only [List.getD_eq_getElem?_getD]
      rw [Nat.add_assoc, List.getElem?_append_right (by omega)]
      have h1 : hd.length + (((tl.take n).map List.length).sum + j) - hd.length
          = ((tl.take n).map List.length).sum + j := by omega
      rw [h1]
      have := ih n j d (by simpa using hi) (by simpa using hj)
      simpa [List.getD_eq_getElem?_getD] using this

theorem range_map_getD (n r : Nat) (f : Nat → List ℚ) (d : List ℚ) (hr : r < n) :
    (((List.range n).map f).getD r d) = f r := by
  rw [List.getD_eq_getElem?_getD, List.getElem?_map, List.getElem?_range hr]
  rfl

theorem getD_range_map_q (n r : Nat) (f : Nat → ℚ) (d : ℚ) (hr : r < n) :
    (((List.range n).map f).getD r d) = f r := by
  rw [List.getD_eq_getElem?_getD, List.getElem?_map, List.getElem?_range hr]
  rfl

theorem drop_take_getD (t : List ℚ) (a c j : Nat) (d : ℚ) (hj : j < c) :
    ((t.drop a).take c).getD j d = t.getD (a + j) d := by
  simp only [List.getD_eq_getElem?_getD, List.getElem?_take, hj, if_pos, List.getElem?_drop]

theorem sum_take_map_length (S : Nat) :
    ∀ (L : List (List ℚ)) (r : Nat), r ≤ L.length → (∀ l ∈ L, l.length = S) →
      ((L.take r).map List.length).sum = r * S := by
  intro L
  induction L with
  | nil =>
    intro r hr _
    have hr0 : r = 0 := by simpa using hr
    subst hr0
    simp
  | cons hd tl ih =>
    intro r hr h
    cases r with
    | zero => simp
    | succ n =>
      simp only [List.take_succ_cons, List.map_cons, List.sum_cons]
      rw [ih n (by simpa using hr) (fun l hl => h l (List.mem_cons_of_mem hd hl))]
      have hhd : hd.length = S := h hd (List.mem_cons_self hd tl)
      rw [hhd]
      ring

theorem partOf_length (t : List ℚ) (c r : Nat) :
    (partOf t c r).length = min c (t.length - r * c) := by
  simp [partOf]

theorem partOf_length_le (t : List ℚ) (c r : Nat) : (partOf t c r).length ≤ c := by
  rw [partOf_length]
  omega

theorem paddedPart_length (mem : Nat → Nat → Nat → ℚ) (W r i : Nat) (t : List ℚ) :
    (paddedPart mem W r i t).length = ceilDiv t.length W := by
  have h := partOf_length_le t (ceilDiv t.length W) r
  simp only [paddedPart, padFillFor, List.length_append, List.length_map, List.length_range]
  omega

theorem getD_eq_getElem_of_lt (L : List (List ℚ)) (k : Nat) (hk : k < L.length) :
    L.getD k [] = L[k] := by
  rw [List.getD_eq_getElem?_getD, List.getElem?_eq_getElem hk]
  rfl

theorem map_eq_range_getD (f : List ℚ → Nat) (ts : List (List ℚ)) :
    ts.map f = (List.range ts.length).map (fun k => f (ts.getD k [])) := by
  apply List.ext_getElem
  · simp
  · intro n h1 h2
    simp only [List.getElem_map, List.getElem_range]
    congr 1
    rw [getD_eq_getElem_of_lt ts n (by simpa using h1)]

theorem take_map_eq_range_getD (f : List ℚ → Nat) (ts : List (List ℚ)) (i : Nat)
    (hi : i ≤ ts.length) :
    (ts.take i).map f = (List.range i).map (fun k => f (ts.getD k [])) := by
  apply List.ext_getElem
  · simp
    omega
  · intro n h1 h2
    have hn : n < i := by simpa using h2
    have hnl : n < ts.length := by omega
    simp only [List.getElem_map, List.getElem_range, List.getElem_take]
    congr 1
    rw [getD_eq_getElem_of_lt ts n hnl]

theorem blockFor_length (mem : Nat → Nat → Nat → ℚ) (ts : List (List ℚ)) (W r : Nat) :
    (blockFor mem ts W r).length = paddedSizesSum ts W := by
  simp only [blockFor, List.length_flatten, List.map_map]
  rw [List.map_congr_left
    (fun k _ => by simpa using paddedPart_length mem W r k (ts.getD k []))]
  rw [paddedSizesSum, map_eq_range_getD]
  simp only [List.getD_eq_getElem?_getD]

theorem sum_range_const (n S : Nat) : ((List.range n).map (fun _ => S)).sum = n * S := by
  induction n with
  | zero => simp
  | succ m ih =>
    rw [List.range_succ, List.map_append, List.sum_append, ih]
    simp
    ring

theorem offsetsBefore_eq (ts : List (List ℚ)) (W i : Nat) (hi : i ≤ ts.length) :
    offsetsBefore ts W i
      = ((List.range i).map (fun k => ceilDiv (ts.getD k []).length W)).sum := by
  unfold offsetsBefore
  rw [take_map_eq_range_getD (fun t => ceilDiv t.length W) ts i hi]

theorem offsetsBefore_succ (ts : List (List ℚ)) (W i : Nat) (hi : i < ts.length) :
    offsetsBefore ts W (i + 1)
      = offsetsBefore ts W i + ceilDiv (ts.getD i []).length W := by
  unfold offsetsBefore
  rw [List.take_succ, List.getElem?_eq_getElem hi]
  simp only [Option.toList_some, List.map_append, List.sum_append, List.map_cons,
    List.map_nil, List.sum_cons, List.sum_nil]
  rw [getD_eq_getElem_of_lt ts i hi]
  omega

theorem offsetsBefore_le_sum (ts : List (List ℚ)) (W i : Nat) :
    offsetsBefore ts W i ≤ paddedSizesSum ts W := by
  unfold offsetsBefore paddedSizesSum
  conv_rhs => rw [← List.take_append_drop i ts]
  rw [List.map_append, List.sum_append]
  exact Nat.le_add_right _ _

theorem offsetsBefore_add_le (ts : List (List ℚ)) (W i : Nat) (hi : i < ts.length) :
    offsetsBefore ts W i + ceilDiv (ts.getD i []).length W ≤ paddedSizesSum ts W := by
  rw [← offsetsBefore_succ ts W i hi]
  exact offsetsBefore_le_sum ts W (i + 1)

theorem interleaved_length (mem : Nat → Nat → Nat → ℚ) (ts : List (List ℚ)) (W : Nat) :
    (interleaved mem ts W).length = W * paddedSizesSum ts W := by
  simp only [interleaved, List.length_flatten, List.map_map]
  rw [List.map_congr_left (fun r _ => by simpa using blockFor_length mem ts W r)]
  exact sum_range_const W _

theorem blocks_take_sum (mem : Nat → Nat → Nat → ℚ) (ts : List (List ℚ)) (W blk : Nat)
    (hblk : blk ≤ W) :
    ((((List.range W).map (fun r => blockFor mem ts W r)).take blk).map List.length).sum
      = blk * paddedSizesSum ts W := by
  rw [← List.map_take, List.take_range, min_eq_left hblk, List.map_map]
  rw [List.map_congr_left (fun r _ => by simpa using blockFor_length mem ts W r)]
  exact sum_range_const blk _

theorem paddedParts_take_sum (mem : Nat → Nat → Nat → ℚ) (ts : List (List ℚ))
    (W blk i : Nat) (hi : i ≤ ts.length) :
    ((((List.range ts.length).map
        (fun k => paddedPart mem W blk k (ts.getD k []))).take i).map List.length).sum
      = offsetsBefore ts W i := by
  rw [← List.map_take, List.take_range, min_eq_left hi, List.map_map]
  rw [List.map_congr_left
    (fun k _ => by simpa using paddedPart_length mem W blk k (ts.getD k []))]
  rw [offsetsBefore_eq ts W i hi]
  simp only [List.getD_eq_getElem?_getD]

theorem interleaved_getD (mem : Nat → Nat → Nat → ℚ) (ts : List (List ℚ))
    (W blk i j : Nat) (d : ℚ) (hblk : blk < W) (hi : i < ts.length)
    (hj : j < (partOf (ts.getD i []) (ceilDiv (ts.getD i []).length W) blk).length) :
    (interleaved mem ts W).getD
        (blk * paddedSizesSum ts W + (offsetsBefore ts W i + j)) d
      = (ts.getD i []).getD (blk * ceilDiv (ts.getD i []).length W + j) d := by
  have hjc : j < ceilDiv (ts.getD i []).length W :=
    lt_of_lt_of_le hj (partOf_length_le _ _ _)
  have hoff : offsetsBefore ts W i + j < paddedSizesSum ts W := by
    have := offsetsBefore_add_le ts W i hi
    omega
  have houter : (interleaved mem ts W).getD
      (blk * paddedSizesSum ts W + (offsetsBefore ts W i + j)) d
      = (blockFor mem ts W blk).getD (offsetsBefore ts W i + j) d := by
    unfold interleaved
    rw [← blocks_take_sum mem ts W blk (le_of_lt hblk)]
    have hmem : blk < ((List.range W).map (fun r => blockFor mem ts W r)).length := by
      simpa using hblk
    have hlen : (((List.range W).map (fun r => blockFor mem ts W r)).getD blk []).length
        = paddedSizesSum ts W := by
      rw [range_map_getD W blk _ [] hblk, blockFor_length]
    have h2 := flatten_getD_prefix ((List.range W).map (fun r => blockFor mem ts W r))
      blk (offsetsBefore ts W i + j) d hmem (by rw [hlen]; exact hoff)
    rw [h2, range_map_getD W blk _ [] hblk]
  have hinner : (blockFor mem ts W blk).getD (offsetsBefore ts W i + j) d
      = (paddedPart mem W blk i (ts.getD i [])).getD j d := by
    unfold blockFor
    rw [← paddedParts_take_sum mem ts W blk i (le_of_lt hi)]
    have hmem : i < ((List.range ts.length).map
        (fun k => paddedPart mem W blk k (ts.getD k []))).length := by
      simpa using hi
    have hlen : (((List.range ts.length).map
        (fun k => paddedPart mem W blk k (ts.getD k []))).getD i []).length
        = ceilDiv (ts.getD i []).length W := by
      rw [range_map_getD ts.length i _ [] hi, paddedPart_length]
    have h2 := flatten_getD_prefix ((List.range ts.length).map
      (fun k => paddedPart mem W blk k (ts.getD k []))) i j d hmem (by rw [hlen]; exact hjc)
    rw [h2, range_map_getD ts.length i _ [] hi]
  have hpp : (paddedPart mem W blk i (ts.getD i [])).getD j d
      = (partOf (ts.getD i []) (ceilDiv (ts.getD i []).length W) blk).getD j d := by
    unfold paddedPart
    rw [List.getD_eq_getElem?_getD, List.getElem?_append, if_pos hj,
      ← List.getD_eq_getElem?_getD]
  have hpart : (partOf (ts.getD i []) (ceilDiv (ts.getD i []).length W) blk).getD j d
      = (ts.getD i []).getD (blk * ceilDiv (ts.getD i []).length W + j) d := by
    unfold partOf
    exact drop_take_getD _ _ _ _ _ hjc
  rw [houter, hinner, hpp, hpart]

theorem ceilDiv_of_dvd (n W q : Nat) (hW : 0 < W) (h : n = W * q) : ceilDiv n W = q := by
  subst h
  unfold ceilDiv
  have hcomm : W * q = q * W := Nat.mul_comm W q
  have h1 : W * q + W - 1 = (W - 1) + q * W := by omega
  rw [h1, Nat.add_mul_div_right _ _ hW, Nat.div_eq_of_lt (by omega)]
  omega

theorem flatten_partOf_tile (x : List ℚ) (c : Nat) (n : Nat) :
    (((List.range n).map (fun r => partOf x c r)).flatten) = x.take (n * c) := by
  induction n with
  | zero => simp
  | succ m ih =>
    rw [List.range_succ, List.map_append, List.flatten_append, ih]
    simp only [List.map_cons, List.map_nil, List.flatten_cons, List.flatten_nil,
      List.append_nil]
    rw [partOf, ← List.take_add]
    congr 1
    ring

theorem flatBufOf_eq_interleaved (mem : Nat → Nat → Nat → ℚ) (ts : List (List ℚ))
    (W : Nat) (hW : 0 < W) : flatBufOf mem ts W = interleaved mem ts W := by
  unfold flatBufOf
  split_ifs with h
  · obtain ⟨hlen, hmod⟩ := h
    obtain ⟨t0, rfl⟩ : ∃ t0, ts = [t0] := by
      cases ts with
      | nil => simp at hlen
      | cons a l =>
        cases l with
        | nil => exact ⟨a, rfl⟩
        | cons b m => simp at hlen
    simp only [List.headD_cons] at hmod ⊢
    obtain ⟨q, hq⟩ := Nat.dvd_of_mod_eq_zero hmod
    have hc : ceilDiv t0.length W = q := ceilDiv_of_dvd t0.length W q hW hq
    have hblocks : ∀ r ∈ List.range W,
        blockFor mem [t0] W r = partOf t0 (ceilDiv t0.length W) r := by
      intro r hr
      have hrW : r < W := List.mem_range.1 hr
      have hplen : (partOf t0 (ceilDiv t0.length W) r).length = ceilDiv t0.length W := by
        rw [partOf_length, hc]
        have hmul : (r + 1) * q ≤ W * q :=
          Nat.mul_le_mul_right q (by omega : r + 1 ≤ W)
        have hms : (r + 1) * q = r * q + q := Nat.succ_mul r q
        omega
      show ((List.range ([t0] : List (List ℚ)).length).map
          (fun i => paddedPart mem W r i ([t0].getD i []))).flatten
        = partOf t0 (ceilDiv t0.length W) r
      rw [show (([t0] : List (List ℚ)).length) = 1 from rfl]
      rw [show List.range 1 = [0] from rfl]
      simp only [List.map_cons, List.map_nil, List.flatten_cons, List.flatten_nil,
        List.append_nil, List.getD_cons_zero]
      unfold paddedPart
      rw [hplen, Nat.sub_self]
      simp [padFillFor]
    unfold interleaved
    rw [List.map_congr_left hblocks, flatten_partOf_tile, hc]
    rw [← hq, List.take_length]
  · rfl

theorem divW_length (W : Nat) (xs : List ℚ) : (divW W xs).length = xs.length := by
  simp [divW]

theorem divW_getD (W : Nat) (xs : List ℚ) (k : Nat) (hk : k < xs.length) :
    (divW W xs).getD k 0 = xs.getD k 0 / (W : ℚ) := by
  unfold divW
  rw [List.getD_eq_getElem?_getD, List.getElem?_map, List.getElem?_eq_getElem hk,
    List.getD_eq_getElem?_getD, List.getElem?_eq_getElem hk]
  rfl

theorem sum_map_div (L : List Nat) (g : Nat → ℚ) (c : ℚ) :
    (L.map (fun r => g r / c)).sum = (L.map g).sum / c := by
  induction L with
  | nil => simp
  | cons a l ih => simp [ih, add_div]

theorem map_length_getD (L : List (List ℚ)) (k : Nat) :
    (L.map List.length).getD k 0 = (L.getD k []).length := by
  by_cases hk : k < L.length
  · rw [List.getD_eq_getElem?_getD, List.getElem?_map, List.getElem?_eq_getElem hk,
      List.getD_eq_getElem?_getD, List.getElem?_eq_getElem hk]
    rfl
  · rw [List.getD_eq_getElem?_getD, List.getElem?_eq_none (by simp; omega),
      List.getD_eq_getElem?_getD, List.getElem?_eq_none (by omega)]
    rfl

theorem paddedSizesSum_congr (ts1 ts2 : List (List ℚ)) (W : Nat)
    (h : ts1.map List.length = ts2.map List.length) :
    paddedSizesSum ts1 W = paddedSizesSum ts2 W := by
  unfold paddedSizesSum
  have h1 : ∀ (L : List (List ℚ)), L.map (fun t => ceilDiv t.length W)
      = (L.map List.length).map (fun n => ceilDiv n W) := by
    intro L
    rw [List.map_map]
    rfl
  rw [h1, h1, h]

theorem offsetsBefore_congr (ts1 ts2 : List (List ℚ)) (W i : Nat)
    (h : ts1.map List.length = ts2.map List.length) :
    offsetsBefore ts1 W i = offsetsBefore ts2 W i := by
  unfold offsetsBefore
  have h1 : ∀ (L : List (List ℚ)), (L.take i).map (fun t => ceilDiv t.length W)
      = ((L.map List.length).take i).map (fun n => ceilDiv n W) := by
    intro L
    rw [← List.map_take, List.map_map]
    rfl
  rw [h1, h1, h]

theorem list_ext_getD (l1 l2 : List ℚ) (hlen : l1.length = l2.length)
    (h : ∀ j, j < l1.length → l1.getD j 0 = l2.getD j 0) : l1 = l2 := by
  apply List.ext_getElem hlen
  intro n h1 h2
  have hd := h n h1
  rw [List.getD_eq_getElem?_getD, List.getElem?_eq_getElem h1,
    List.getD_eq_getElem?_getD, List.getElem?_eq_getElem h2] at hd
  simpa using hd

theorem reduceScatterChunk_length (W S thisRank : Nat) (bufOf : Nat → List ℚ) :
    (reduceScatterChunk W S thisRank bufOf).length = S := by
  simp [reduceScatterChunk]

theorem reduceScatterChunk_getD (W S thisRank j : Nat) (bufOf : Nat → List ℚ)
    (hj : j < S) :
    (reduceScatterChunk W S thisRank bufOf).getD j 0
      = ((List.range W).map (fun r => (bufOf r).getD (thisRank * S + j) 0)).sum := by
  unfold reduceScatterChunk
  exact getD_range_map_q S j _ 0 hj

theorem sumAcross_length (W : Nat) (f : Nat → List ℚ) (n : Nat) :
    (sumAcross W f n).length = n := by
  simp [sumAcross]

theorem sumAcross_getD (W : Nat) (f : Nat → List ℚ) (n p : Nat) (hp : p < n) :
    (sumAcross W f n).getD p 0
      = ((List.range W).map (fun r => (f r).getD p 0)).sum := by
  unfold sumAcross
  exact getD_range_map_q n p _ 0 hp

theorem reduce_scatter_coalesced_getD_eq (memOf : Nat → Nat → Nat → Nat → ℚ)
    (tensorsOf : Nat → List (List ℚ)) (W thisRank i : Nat)
    (hi : i < (tensorsOf thisRank).length) :
    (reduce_scatter_coalesced memOf tensorsOf W thisRank).getD i []
      = ((reduceScatterChunk W (paddedSizesSum (tensorsOf thisRank) W) thisRank
          (fun r => divW W (flatBufOf (memOf r) (tensorsOf r) W))).drop
            (offsetsBefore (tensorsOf thisRank) W i)).take
          ((partOf ((tensorsOf thisRank).getD i [])
            (ceilDiv ((tensorsOf thisRank).getD i []).length W) thisRank).length) := by
  unfold reduce_scatter_coalesced
  exact range_map_getD _ i _ [] hi

theorem reduce_scatter_coalesced_spec (memOf : Nat → Nat → Nat → Nat → ℚ)
    (tensorsOf : Nat → List (List ℚ)) (W thisRank : Nat)
    (hW : 0 < W) (hr : thisRank < W)
    (hsh : ∀ r, r < W →
      (tensorsOf r).map List.length = (tensorsOf thisRank).map List.length)
    (i : Nat) (hi : i < (tensorsOf thisRank).length) :
    (reduce_scatter_coalesced memOf tensorsOf W thisRank).getD i []
      = divW W (partOf
          (sumAcross W (fun r => (tensorsOf r).getD i [])
            ((tensorsOf thisRank).getD i []).length)
          (ceilDiv ((tensorsOf thisRank).getD i []).length W) thisRank) := by
  have hS : ∀ r, r < W →
      paddedSizesSum (tensorsOf r) W = paddedSizesSum (tensorsOf thisRank) W :=
    fun r hrW => paddedSizesSum_congr _ _ W (hsh r hrW)
  have hoffc : ∀ r, r < W →
      offsetsBefore (tensorsOf r) W i = offsetsBefore (tensorsOf thisRank) W i :=
    fun r hrW => offsetsBefore_congr _ _ W i (hsh r hrW)
  have hlenlist : ∀ r, r < W → (tensorsOf r).length = (tensorsOf thisRank).length := by
    intro r hrW
    have := congrArg List.length (hsh r hrW)
    simpa using this
  have hnum : ∀ r, r < W →
      ((tensorsOf r).getD i []).length = ((tensorsOf thisRank).getD i []).length := by
    intro r hrW
    have h1 : ((tensorsOf r).map List.length).getD i 0
        = ((tensorsOf thisRank).map List.length).getD i 0 := by
      rw [hsh r hrW]
    rw [map_length_getD, map_length_getD] at h1
    exact h1
  rw [reduce_scatter_coalesced_getD_eq memOf tensorsOf W thisRank i hi]
  apply list_ext_getD
  · rw [List.length_take, List.length_drop, reduceScatterChunk_length]
    rw [divW_length, partOf_length, partOf_length, sumAcross_length]
    have h1 := offsetsBefore_add_le (tensorsOf thisRank) W i hi
    have h2 := partOf_length_le ((tensorsOf thisRank).getD i [])
      (ceilDiv ((tensorsOf thisRank).getD i []).length W) thisRank
    rw [partOf_length] at h2
    omega
  · intro j hj
    rw [List.length_take, List.length_drop, reduceScatterChunk_length] at hj
    have hjpl : j < (partOf ((tensorsOf thisRank).getD i [])
        (ceilDiv ((tensorsOf thisRank).getD i []).length W) thisRank).length := by
      omega
    have hjc : j < ceilDiv ((tensorsOf thisRank).getD i []).length W :=
      lt_of_lt_of_le hjpl (partOf_length_le _ _ _)
    have hjn : thisRank * ceilDiv ((tensorsOf thisRank).getD i []).length W + j
        < ((tensorsOf thisRank).getD i []).length := by
      rw [partOf_length] at hjpl
      omega
    rw [drop_take_getD _ _ _ _ _ hjpl]
    have hoffj : offsetsBefore (tensorsOf thisRank) W i + j
        < paddedSizesSum (tensorsOf thisRank) W := by
      have h1 := offsetsBefore_add_le (tensorsOf thisRank) W i hi
      rw [partOf_length] at hjpl
      omega
    rw [reduceScatterChunk_getD _ _ _ _ _ hoffj]
    have hsum : ∀ r ∈ List.range W,
        (divW W (flatBufOf (memOf r) (tensorsOf r) W)).getD
          (thisRank * paddedSizesSum (tensorsOf thisRank) W
            + (offsetsBefore (tensorsOf thisRank) W i + j)) 0
        = ((tensorsOf r).getD i []).getD
            (thisRank * ceilDiv ((tensorsOf thisRank).getD i []).length W + j) 0
            / (W : ℚ) := by
      intro r hrmem
      have hrW : r < W := List.mem_range.1 hrmem
      rw [flatBufOf_eq_interleaved (memOf r) (tensorsOf r) W hW]
      have hidx : thisRank * paddedSizesSum (tensorsOf thisRank) W
          + (offsetsBefore (tensorsOf thisRank) W i + j)
          < (interleaved (memOf r) (tensorsOf r) W).length := by
        rw [interleaved_length, hS r hrW]
        have hmul : (thisRank + 1) * paddedSizesSum (tensorsOf thisRank) W
            ≤ W * paddedSizesSum (tensorsOf thisRank) W :=
          Nat.mul_le_mul_right _ (by omega : thisRank + 1 ≤ W)
        have hms : (thisRank + 1) * paddedSizesSum (tensorsOf thisRank) W
            = thisRank * paddedSizesSum (tensorsOf thisRank) W
              + paddedSizesSum (tensorsOf thisRank) W :=
          Nat.succ_mul _ _
        omega
      rw [divW_getD _ _ _ hidx]
      congr 1
      have hidx2 : thisRank * paddedSizesSum (tensorsOf thisRank) W
          + (offsetsBefore (tensorsOf thisRank) W i + j)
          = thisRank * paddedSizesSum (tensorsOf r) W
            + (offsetsBefore (tensorsOf r) W i + j) := by
        rw [hS r hrW, hoffc r hrW]
      rw [hidx2]
      have hir : i < (tensorsOf r).length := by
        rw [hlenlist r hrW]
        exact hi
      have hjr : j < (partOf ((tensorsOf r).getD i [])
          (ceilDiv ((tensorsOf r).getD i []).length W) thisRank).length := by
        rw [partOf_length, hnum r hrW]
        rw [partOf_length] at hjpl
        omega
      have h3 := interleaved_getD (memOf r) (tensorsOf r) W thisRank i j 0 hr hir hjr
      rw [h3, hnum r hrW]
    rw [List.map_congr_left hsum]
    rw [sum_map_div (List.range W)
      (fun r => ((tensorsOf r).getD i []).getD
        (thisRank * ceilDiv ((tensorsOf thisRank).getD i []).length W + j) 0) (W : ℚ)]
    have hjplR : j < (partOf (sumAcross W (fun r => (tensorsOf r).getD i [])
        ((tensorsOf thisRank).getD i []).length)
        (ceilDiv ((tensorsOf thisRank).getD i []).length W) thisRank).length := by
      rw [partOf_length, sumAcross_length]
      rw [partOf_length] at hjpl
      exact hjpl
    rw [divW_getD _ _ j hjplR]
    unfold partOf
    rw [drop_take_getD _ _ _ _ _ hjc]
    rw [sumAcross_getD W _ _ _ hjn]

/-- C1: for every non-empty list of input buffers (with identical shapes
across all W ranks, the precondition of the collective), in exact arithmetic
reduce_scatter_coalesced returns one output per input, in order, and output i
equals this rank's partition of the elementwise sum across ranks of the i-th
inputs divided by world_size, an average-reduction, realized by pre-dividing
the interleaved buffer by world_size before a single sum-based reduce-scatter
collective. -/
theorem C1_reduce_scatter_coalesced_average (memOf : Nat → Nat → Nat → Nat → ℚ)
    (tensorsOf : Nat → List (List ℚ)) (W thisRank : Nat)
    (hW : 0 < W) (hr : thisRank < W) (hne : tensorsOf thisRank ≠ [])
    (hsh : ∀ r, r < W →
      (tensorsOf r).map List.length = (tensorsOf thisRank).map List.length) :
    (reduce_scatter_coalesced memOf tensorsOf W thisRank).length
      = (tensorsOf thisRank).length ∧
    ∀ i, i < (tensorsOf thisRank).length →
      (reduce_scatter_coalesced memOf tensorsOf W thisRank).getD i []
        = divW W (partOf
            (sumAcross W (fun r => (tensorsOf r).getD i [])
              ((tensorsOf thisRank).getD i []).length)
            (ceilDiv ((tensorsOf thisRank).getD i []).length W) thisRank) := by
  constructor
  · simp [reduce_scatter_coalesced]
  · intro i hi
    exact reduce_scatter_coalesced_spec memOf tensorsOf W thisRank hW hr hsh i hi

/-- Witness for C1 at W = 2, rank 0, one 3-element buffer per rank. -/
theorem C1_witness :
    (0 < 2 ∧ 0 < 2 ∧ (fun _ : Nat => [[(1 : ℚ), 2, 3]]) 0 ≠ [] ∧
      (∀ r, r < 2 → ((fun _ : Nat => [[(1 : ℚ), 2, 3]]) r).map List.length
        = ((fun _ : Nat => [[(1 : ℚ), 2, 3]]) 0).map List.length)) ∧
    ((reduce_scatter_coalesced (fun _ _ _ _ => 0)
        (fun _ => [[(1 : ℚ), 2, 3]]) 2 0).length
      = ((fun _ : Nat => [[(1 : ℚ), 2, 3]]) 0).length ∧
    ∀ i, i < ((fun _ : Nat => [[(1 : ℚ), 2, 3]]) 0).length →
      (reduce_scatter_coalesced (fun _ _ _ _ => 0)
          (fun _ => [[(1 : ℚ), 2, 3]]) 2 0).getD i []
        = divW 2 (partOf
            (sumAcross 2 (fun r => ((fun _ : Nat => [[(1 : ℚ), 2, 3]]) r).getD i [])
              (((fun _ : Nat => [[(1 : ℚ), 2, 3]]) 0).getD i []).length)
            (ceilDiv (((fun _ : Nat => [[(1 : ℚ), 2, 3]]) 0).getD i []).length 2) 0)) :=
  ⟨⟨by decide, by decide, by simp, by decide⟩,
   C1_reduce_scatter_coalesced_average (fun _ _ _ _ => 0)
     (fun _ => [[(1 : ℚ), 2, 3]]) 2 0 (by decide) (by decide) (by simp) (by decide)⟩

/-- C3 counterexample: the filler elements are not zero-valued: torch.empty
yields uninitialized memory, and under an allocator whose fresh memory holds
1, the filler element appended by the general interleave path of
reduce_scatter_coalesced (position 3 of the interleaved buffer for one
3-element tensor at world size 2) equals 1, and so does the tail element of
the aligned buffer of all_to_all_quant_reduce. -/
theorem C3_counterexample :
    (interleaved (fun _ _ _ => (1 : ℚ)) [[1, 2, 3]] 2).getD 3 0 ≠ 0 ∧
    (alignedBuf (fun _ => (1 : ℚ)) [1, 2, 3] 2).getD 3 0 ≠ 0 := by
  constructor
  · decide
  · decide

/-- C3 amended: the filler elements introduced by the core are uninitialized
(torch.empty), not guaranteed zero; they are never read back into the outputs
of reduce_scatter_coalesced: runs with arbitrary distinct allocator oracles
produce identical outputs. -/
theorem C3_amended_filler_unspecified_but_unread
    (memOf memOf2 : Nat → Nat → Nat → Nat → ℚ)
    (tensorsOf : Nat → List (List ℚ)) (W thisRank : Nat)
    (hW : 0 < W) (hr : thisRank < W)
    (hsh : ∀ r, r < W →
      (tensorsOf r).map List.length = (tensorsOf thisRank).map List.length) :
    reduce_scatter_coalesced memOf tensorsOf W thisRank
      = reduce_scatter_coalesced memOf2 tensorsOf W thisRank := by
  apply List.ext_getElem
  · simp [reduce_scatter_coalesced]
  · intro n h1 h2
    have hn : n < (tensorsOf thisRank).length := by
      simpa [reduce_scatter_coalesced] using h1
    have e1 := reduce_scatter_coalesced_spec memOf tensorsOf W thisRank hW hr hsh n hn
    have e2 := reduce_scatter_coalesced_spec memOf2 tensorsOf W thisRank hW hr hsh n hn
    have g1 : (reduce_scatter_coalesced memOf tensorsOf W thisRank)[n]
        = (reduce_scatter_coalesced memOf tensorsOf W thisRank).getD n [] :=
      (getD_eq_getElem_of_lt _ n h1).symm
    have g2 : (reduce_scatter_coalesced memOf2 tensorsOf W thisRank)[n]
        = (reduce_scatter_coalesced memOf2 tensorsOf W thisRank).getD n [] :=
      (getD_eq_getElem_of_lt _ n h2).symm
    rw [g1, g2, e1, e2]

/-- Witness for the amended C3: allocators filling fresh memory with 5 and
with 7 give the same outputs. -/
theorem C3_amended_witness :
    0 < 2 ∧
    reduce_scatter_coalesced (fun _ _ _ _ => (5 : ℚ))
        (fun _ => [[(1 : ℚ), 2, 3]]) 2 0
      = reduce_scatter_coalesced (fun _ _ _ _ => (7 : ℚ))
        (fun _ => [[(1 : ℚ), 2, 3]]) 2 0 :=
  ⟨by decide,
   C3_amended_filler_unspecified_but_unread (fun _ _ _ _ => 5) (fun _ _ _ _ => 7)
     (fun _ => [[(1 : ℚ), 2, 3]]) 2 0 (by decide) (by decide) (by decide)⟩

/-- C4: output i of reduce_scatter_coalesced has exactly
partition_length(buffer_i, this_rank)
= min(ceil(numel_i / W), numel_i - this_rank * ceil(numel_i / W)) elements
(natural subtraction realizes max(0, ...)): interleave-then-de-interleave
recovers the exact original per-rank partition lengths, including the short
tail partition when numel_i is not a multiple of W. -/
theorem C4_output_partition_lengths (memOf : Nat → Nat → Nat → Nat → ℚ)
    (tensorsOf : Nat → List (List ℚ)) (W thisRank : Nat)
    (hW : 0 < W) (hr : thisRank < W)
    (i : Nat) (hi : i < (tensorsOf thisRank).length) :
    ((reduce_scatter_coalesced memOf tensorsOf W thisRank).getD i []).length
      = min (ceilDiv ((tensorsOf thisRank).getD i []).length W)
          (((tensorsOf thisRank).getD i []).length
            - thisRank * ceilDiv ((tensorsOf thisRank).getD i []).length W) := by
  rw [reduce_scatter_coalesced_getD_eq memOf tensorsOf W thisRank i hi]
  rw [List.length_take, List.length_drop, reduceScatterChunk_length]
  rw [partOf_length]
  have h1 := offsetsBefore_add_le (tensorsOf thisRank) W i hi
  omega

/-- Witness for C4 at W = 4, rank 3, one 10-element buffer: the output has
min(3, 10 - 9) = 1 element, the short tail partition. -/
theorem C4_witness :
    (0 < 4 ∧ 3 < 4 ∧
      0 < ((fun _ : Nat => [[(1 : ℚ), 2, 3, 4, 5, 6, 7, 8, 9, 10]]) 3).length) ∧
    ((reduce_scatter_coalesced (fun _ _ _ _ => 0)
        (fun _ => [[(1 : ℚ), 2, 3, 4, 5, 6, 7, 8, 9, 10]]) 4 3).getD 0 []).length
      = min (ceilDiv (((fun _ : Nat => [[(1 : ℚ), 2, 3, 4, 5, 6, 7, 8, 9, 10]]) 3).getD 0 []).length 4)
          ((((fun _ : Nat => [[(1 : ℚ), 2, 3, 4, 5, 6, 7, 8, 9, 10]]) 3).getD 0 []).length
            - 3 * ceilDiv (((fun _ : Nat => [[(1 : ℚ), 2, 3, 4, 5, 6, 7, 8, 9, 10]]) 3).getD 0 []).length 4) :=
  ⟨⟨by decide, by decide, by decide⟩,
   C4_output_partition_lengths (fun _ _ _ _ => 0)
     (fun _ => [[(1 : ℚ), 2, 3, 4, 5, 6, 7, 8, 9, 10]]) 4 3 (by decide) (by decide)
     0 (by decide)⟩

theorem setSlice_getD (xs v : List ℚ) (off k : Nat) (d : ℚ)
    (hoff : off + v.length ≤ xs.length) :
    (setSlice xs off v).getD k d =
      if off ≤ k ∧ k < off + v.length then v.getD (k - off) d else xs.getD k d := by
  unfold setSlice
  have htl : (xs.take off).length = off := by
    rw [List.length_take]
    omega
  rw [List.getD_eq_getElem?_getD, List.append_assoc, List.getElem?_append, htl]
  by_cases h1 : k < off
  · rw [if_pos h1, List.getElem?_take, if_pos h1, if_neg (by omega),
      ← List.getD_eq_getElem?_getD]
  · rw [if_neg h1]
    by_cases h2 : k < off + v.length
    · rw [List.getElem?_append, if_pos (by omega), if_pos (by omega),
        ← List.getD_eq_getElem?_getD]
    · rw [List.getElem?_append_right (by omega), List.getElem?_drop]
      have hidx : off + v.length + (k - off - v.length) = k := by omega
      rw [hidx]
      rw [if_neg (by omega), ← List.getD_eq_getElem?_getD]

theorem shape_singleton (L : List (List ℚ)) (t0 : List ℚ)
    (h : L.map List.length = ([t0] : List (List ℚ)).map List.length) :
    ∃ u, L = [u] ∧ u.length = t0.length := by
  cases L with
  | nil => simp at h
  | cons a l =>
    cases l with
    | nil =>
      refine ⟨a, rfl, ?_⟩
      simpa using h
    | cons b m => simp at h

/-- C10: when reduce_scatter_coalesced is called with exactly one tensor whose
element count is a multiple of world_size (the no-allocation fast path), the
caller's input buffer is mutated in place: afterwards every element holds the
original value divided by world_size, except the chunk belonging to this rank
(positions [this_rank * (numel / W), this_rank * (numel / W) + numel / W)),
which is additionally overwritten with the reduce-scattered result, the sum
across ranks of the pre-divided values; the input does not retain its
original contents. -/
theorem C10_fast_path_mutates_input (memOf : Nat → Nat → Nat → Nat → ℚ)
    (tensorsOf : Nat → List (List ℚ)) (W thisRank : Nat) (t0 : List ℚ)
    (hW : 0 < W) (hr : thisRank < W)
    (hts : tensorsOf thisRank = [t0]) (hdvd : t0.length % W = 0)
    (hsh : ∀ r, r < W →
      (tensorsOf r).map List.length = (tensorsOf thisRank).map List.length) :
    ∀ k, k < t0.length →
      ((reduce_scatter_coalesced_input_after memOf tensorsOf W thisRank).getD 0 []).getD k 0
        = if thisRank * (t0.length / W) ≤ k ∧ k < thisRank * (t0.length / W) + t0.length / W
          then ((List.range W).map
              (fun r => ((tensorsOf r).getD 0 []).getD k 0)).sum / (W : ℚ)
          else t0.getD k 0 / (W : ℚ) := by
  intro k hk
  obtain ⟨q, hq⟩ := Nat.dvd_of_mod_eq_zero hdvd
  have hc : ceilDiv t0.length W = q := ceilDiv_of_dvd t0.length W q hW hq
  have hdivq : t0.length / W = q := by
    rw [hq]
    exact Nat.mul_div_cancel_left q hW
  have hS1 : paddedSizesSum [t0] W = q := by
    simp [paddedSizesSum, hc]
  unfold reduce_scatter_coalesced_input_after
  rw [hts]
  have hcond : (([t0] : List (List ℚ)).length = 1
      ∧ (([t0] : List (List ℚ)).headD []).length % W = 0) := ⟨rfl, by simpa using hdvd⟩
  rw [if_pos hcond, List.getD_cons_zero]
  simp only [List.headD_cons]
  have hred : (reduceScatterChunk W (paddedSizesSum [t0] W) thisRank
      (fun r => divW W (flatBufOf (memOf r) (tensorsOf r) W))).length
      = paddedSizesSum [t0] W := reduceScatterChunk_length _ _ _ _
  have hoffb : thisRank * paddedSizesSum [t0] W
      + (reduceScatterChunk W (paddedSizesSum [t0] W) thisRank
        (fun r => divW W (flatBufOf (memOf r) (tensorsOf r) W))).length
      ≤ (divW W t0).length := by
    rw [hred, hS1, divW_length]
    have hmul : (thisRank + 1) * q ≤ W * q :=
      Nat.mul_le_mul_right q (by omega : thisRank + 1 ≤ W)
    have hms : (thisRank + 1) * q = thisRank * q + q := Nat.succ_mul _ _
    omega
  rw [setSlice_getD _ _ _ _ _ hoffb]
  rw [hred, hS1, hdivq]
  by_cases hcase : thisRank * q ≤ k ∧ k < thisRank * q + q
  · rw [if_pos hcase, if_pos hcase]
    rw [reduceScatterChunk_getD _ _ _ _ _ (by omega : k - thisRank * q < q)]
    have hix : thisRank * q + (k - thisRank * q) = k := by omega
    rw [hix]
    have hsum : ∀ r ∈ List.range W,
        (divW W (flatBufOf (memOf r) (tensorsOf r) W)).getD k 0
          = ((tensorsOf r).getD 0 []).getD k 0 / (W : ℚ) := by
      intro r hrmem
      have hrW : r < W := List.mem_range.1 hrmem
      obtain ⟨u, hu, hulen⟩ := shape_singleton (tensorsOf r) t0 (by rw [hsh r hrW, hts])
      rw [hu]
      have hcondr : (([u] : List (List ℚ)).length = 1
          ∧ (([u] : List (List ℚ)).headD []).length % W = 0) := by
        refine ⟨rfl, ?_⟩
        simp only [List.headD_cons]
        rw [hulen]
        exact hdvd
      unfold flatBufOf
      rw [if_pos hcondr]
      simp only [List.headD_cons, List.getD_cons_zero]
      exact divW_getD W u k (by omega)
    rw [List.map_congr_left hsum]
    rw [sum_map_div (List.range W) (fun r => ((tensorsOf r).getD 0 []).getD k 0) (W : ℚ)]
  · rw [if_neg hcase, if_neg hcase]
    exact divW_getD W t0 k hk

/-- Witness for C10 at W = 2, rank 0, one 4-element buffer. -/
theorem C10_witness :
    (0 < 2 ∧ 0 < 2 ∧
      (fun _ : Nat => [[(1 : ℚ), 2, 3, 4]]) 0 = [[(1 : ℚ), 2, 3, 4]] ∧
      ([(1 : ℚ), 2, 3, 4] : List ℚ).length % 2 = 0) ∧
    ∀ k, k < ([(1 : ℚ), 2, 3, 4] : List ℚ).length →
      ((reduce_scatter_coalesced_input_after (fun _ _ _ _ => 0)
          (fun _ => [[(1 : ℚ), 2, 3, 4]]) 2 0).getD 0 []).getD k 0
        = if 0 * (([(1 : ℚ), 2, 3, 4] : List ℚ).length / 2) ≤ k
              ∧ k < 0 * (([(1 : ℚ), 2, 3, 4] : List ℚ).length / 2)
                  + ([(1 : ℚ), 2, 3, 4] : List ℚ).length / 2
          then ((List.range 2).map
              (fun r => (((fun _ : Nat => [[(1 : ℚ), 2, 3, 4]]) r).getD 0 []).getD k 0)).sum
              / ((2 : Nat) : ℚ)
          else ([(1 : ℚ), 2, 3, 4] : List ℚ).getD k 0 / ((2 : Nat) : ℚ) :=
  ⟨⟨by decide, by decide, rfl, by decide⟩,
   C10_fast_path_mutates_input (fun _ _ _ _ => 0) (fun _ => [[(1 : ℚ), 2, 3, 4]]) 2 0
     [(1 : ℚ), 2, 3, 4] (by decide) (by decide) rfl (by decide) (by decide)⟩
